import Mathlib

/-!
Shallow embedding of the employee-data dashboard (`src/app2.py`): the data
model, dataset loader, filter pipeline, aggregation engine, correlation and
CSV export, together with theorems checking the specification's claims
against the embedded code.

Conventions: a pandas DataFrame over the fixed employee schema is a
`List Row`; machine floats are modelled as rationals (`ℚ`), exact where the
code computes with floats; boolean masks become `List.filter`.
-/

/-- One employee record, after loading (`Salary` has no missing values).
Columns as read from `data.csv`: Name, Age, Salary, City, Category,
Department, Date. -/
structure Row where
  name : String
  age : ℚ
  salary : ℚ
  city : String
  category : String
  department : String
  date : String
deriving DecidableEq

/-- The UI filter state of `app2.py` lines 107-131: the two multiselects,
the salary slider pair, and the search text input. -/
structure FilterCriteria where
  categories : List String
  departments : List String
  salaryMin : ℚ
  salaryMax : ℚ
  searchTerm : String
deriving DecidableEq

/-- One token of the regular-expression fragment that
`Series.str.contains(term, case=False)` compiles a search term into:
a literal character or the `.` metacharacter. The embedding is faithful to
Python `re.search` for terms containing no metacharacter other than `.`;
other metacharacters are outside the embedded fragment. -/
inductive RTok where
  | lit (c : Char)
  | dot
deriving DecidableEq

/-- Whether one regex token matches one character, with `re.IGNORECASE`
(from `case=False`); `.` matches any character except a newline. -/
def tokMatch : RTok → Char → Bool
  | .lit c, d => c.toLower = d.toLower
  | .dot, d => d ≠ '\n'

/-- Whether the token list matches a prefix of the character list. -/
def matchAt : List RTok → List Char → Bool
  | [], _ => true
  | _ :: _, [] => false
  | t :: ts, c :: cs => tokMatch t c && matchAt ts cs

/-- Python `re.search`: the pattern matches starting at some position. -/
def reSearch (p : List RTok) : List Char → Bool
  | [] => matchAt p []
  | c :: cs => matchAt p (c :: cs) || reSearch p cs

/-- Compilation of a search term into regex tokens: `.` becomes the
metacharacter, every other character a literal. -/
def parsePat (s : String) : List RTok :=
  s.data.map (fun c => if c = '.' then .dot else .lit c)

/-- The code's search test, `Series.str.contains(search_term, case=False)`
(app2.py lines 144-145): the term, compiled as a regular expression, matches
somewhere in the string, ignoring case. -/
def strContainsCI (pat s : String) : Bool :=
  reSearch (parsePat pat) s.data

/-- Whether the first character list is an initial segment of the second. -/
def listIsPref : List Char → List Char → Bool
  | [], _ => true
  | _ :: _, [] => false
  | a :: as, b :: bs => a = b && listIsPref as bs

/-- Whether the first character list occurs contiguously in the second. -/
def listIsInf (n : List Char) : List Char → Bool
  | [] => listIsPref n []
  | c :: cs => listIsPref n (c :: cs) || listIsInf n cs

/-- Case-insensitive substring test. This follows the spec's words ("the
term is a case-insensitive substring of `row.Name` or `row.City`"), for
comparison with the code's `strContainsCI`. -/
def isSubstrCI (needle hay : String) : Bool :=
  listIsInf (needle.data.map Char.toLower) (hay.data.map Char.toLower)

/-- Step 1 of the filter (app2.py lines 134-139): keep rows whose Category
is among the selected categories, whose Department is among the selected
departments, and whose Salary lies inclusively between the slider bounds. -/
def filteredDfStep1 (df : List Row) (c : FilterCriteria) : List Row :=
  df.filter (fun r =>
    c.categories.contains r.category &&
    c.departments.contains r.department &&
    decide (c.salaryMin ≤ r.salary) &&
    decide (r.salary ≤ c.salaryMax))

/-- The full filter (app2.py lines 134-146): step 1, then, when the search
term is non-empty (`if search_term:`), keep only rows whose Name or City
matches the term case-insensitively. -/
def filteredDf (df : List Row) (c : FilterCriteria) : List Row :=
  let step1 := filteredDfStep1 df c
  if c.searchTerm = "" then step1
  else step1.filter (fun r =>
    strContainsCI c.searchTerm r.name || strContainsCI c.searchTerm r.city)

/-- The spec's search semantics, for comparison: like `filteredDf` but with
the term taken as a literal case-insensitive substring of Name or City. -/
def filteredDfSpecSearch (df : List Row) (c : FilterCriteria) : List Row :=
  let step1 := filteredDfStep1 df c
  if c.searchTerm = "" then step1
  else step1.filter (fun r =>
    isSubstrCI c.searchTerm r.name || isSubstrCI c.searchTerm r.city)

/-- C2: a row is kept by the step-1 filter iff it is a row of the input
whose Category is selected, whose Department is selected, and whose Salary
lies inclusively between the selected bounds; contrapositively, every input
row not in the result violates at least one of the three predicates. -/
theorem mem_filteredDfStep1_iff (df : List Row) (c : FilterCriteria) (r : Row) :
    r ∈ filteredDfStep1 df c ↔
      r ∈ df ∧ r.category ∈ c.categories ∧ r.department ∈ c.departments ∧
        c.salaryMin ≤ r.salary ∧ r.salary ≤ c.salaryMax := by
  simp [filteredDfStep1, List.mem_filter, and_assoc]

/-- C4: for any criteria, enabling a search term never increases the number
of rows returned relative to the same criteria with the term removed. -/
theorem search_never_increases (df : List Row) (c : FilterCriteria) :
    (filteredDf df c).length ≤
      (filteredDf df { c with searchTerm := "" }).length := by
  show (filteredDf df c).length ≤ (filteredDfStep1 df c).length
  unfold filteredDf
  by_cases h : c.searchTerm = "" <;> simp [h, List.length_filter_le]

/-- C5: an empty category selection (or an empty department selection)
yields an empty result, never the full table. -/
theorem empty_selection_gives_empty (df : List Row) (c : FilterCriteria)
    (h : c.categories = [] ∨ c.departments = []) : filteredDf df c = [] := by
  have hstep : filteredDfStep1 df c = [] := by
    unfold filteredDfStep1
    rcases h with h | h <;>
      simp [h, List.filter_eq_nil_iff]
  unfold filteredDf
  rw [hstep]
  by_cases hs : c.searchTerm = "" <;> simp [hs]

/-- A tiny concrete table used by witnesses and counterexamples. -/
def rowA : Row :=
  { name := "Alice", age := 30, salary := 100, city := "Rome",
    category := "Eng", department := "IT", date := "2021-01-01" }

/-- A second concrete row, in a different category with another salary. -/
def rowB : Row :=
  { name := "Bob", age := 40, salary := 300, city := "Paris",
    category := "Ops", department := "IT", date := "2021-01-02" }

/-- Witness for C5: with a nonempty two-row table and an empty category
selection the filter returns the empty table. -/
theorem empty_selection_gives_empty_witness :
    filteredDf [rowA, rowB]
      { categories := [], departments := ["IT"], salaryMin := 0,
        salaryMax := 1000, searchTerm := "" } = [] :=
  empty_selection_gives_empty [rowA, rowB] _ (Or.inl rfl)

/-- Arithmetic mean of a rational list (`Series.mean()`), as sum divided by
length; exact on the nonempty lists the app applies it to. -/
def listMean (l : List ℚ) : ℚ := l.sum / l.length

/-- The Salary column of a table. -/
def salaryCol (df : List Row) : List ℚ := df.map (·.salary)

/-- The two headline metrics of a render pass. -/
structure Metrics where
  totalEmployees : ℕ
  averageSalary : ℚ
deriving DecidableEq

/-- Headline metrics as the render pass computes them (app2.py lines
99-101, displayed at lines 151-156): both are computed from the loaded
table before any filtering, whatever the criteria are. -/
def renderMetrics (df : List Row) (_c : FilterCriteria) : Metrics :=
  { totalEmployees := df.length, averageSalary := listMean (salaryCol df) }

/-- Criteria keeping only category "Eng", used by the C1 counterexample. -/
def cexCriteria : FilterCriteria :=
  { categories := ["Eng"], departments := ["IT"], salaryMin := 0,
    salaryMax := 1000, searchTerm := "" }

/-- C1 as stated fails on the code: with the two-row table and criteria
keeping only category "Eng", the displayed Average Salary is the unfiltered
mean 200, not the filtered mean 100. -/
theorem average_salary_not_filtered_mean :
    (renderMetrics [rowA, rowB] cexCriteria).averageSalary ≠
      listMean (salaryCol (filteredDf [rowA, rowB] cexCriteria)) := by
  have h1 : filteredDf [rowA, rowB] cexCriteria = [rowA] := rfl
  rw [h1]
  simp only [renderMetrics, salaryCol, listMean, List.map_cons,
    List.map_nil, List.sum_cons, List.sum_nil, List.length_cons,
    List.length_nil, rowA, rowB]
  norm_num

/-- C1 amended: the headline Average Salary metric equals the arithmetic
mean of Salary over the unfiltered loaded table, for every table and every
criteria; it does not reflect the filtered view. -/
theorem average_salary_is_unfiltered_mean (df : List Row) (c : FilterCriteria) :
    (renderMetrics df c).averageSalary = listMean (salaryCol df) := rfl

/-- Characters with a special meaning in Python regular expressions. -/
def isRegexMeta (c : Char) : Bool :=
  c ∈ ['.', '^', '$', '*', '+', '?', '\x7b', '\x7d', '[', ']', '\\', '|', '(', ')']

/-- Criteria whose search term is the single regex metacharacter dot. -/
def dotCriteria : FilterCriteria :=
  { categories := ["Ops"], departments := ["IT"], salaryMin := 0,
    salaryMax := 1000, searchTerm := "." }

/-- C3 as stated fails on the code: with search term ".", the code keeps
the row named "Bob" in "Paris" (the term is compiled as a regular
expression and `.` matches any character), although "." is not a substring
of either field, so the substring-semantics filter drops the row. -/
theorem search_term_not_substring_semantics :
    filteredDf [rowB] dotCriteria = [rowB] ∧
      filteredDfSpecSearch [rowB] dotCriteria = [] := by
  decide

/-- Matching a list of literal tokens at the head of a string is the
case-insensitive initial-segment test. -/
theorem matchAt_lit (pat cs : List Char) :
    matchAt (pat.map RTok.lit) cs
      = listIsPref (pat.map Char.toLower) (cs.map Char.toLower) := by
  induction pat generalizing cs with
  | nil => cases cs <;> rfl
  | cons a as ih =>
    cases cs with
    | nil => rfl
    | cons c cs' => simp [matchAt, listIsPref, tokMatch, ih]

/-- Searching a list of literal tokens anywhere in a string is the
case-insensitive substring test. -/
theorem reSearch_lit (pat cs : List Char) :
    reSearch (pat.map RTok.lit) cs
      = listIsInf (pat.map Char.toLower) (cs.map Char.toLower) := by
  induction cs with
  | nil => simpa [reSearch, listIsInf] using matchAt_lit pat []
  | cons c cs' ih => simp [reSearch, listIsInf, matchAt_lit, ih]

/-- For terms without regex metacharacters the code's search test is
exactly the case-insensitive substring test of the spec. -/
theorem strContainsCI_eq_isSubstrCI (pat s : String)
    (h : ∀ c ∈ pat.data, isRegexMeta c = false) :
    strContainsCI pat s = isSubstrCI pat s := by
  have hpat : parsePat pat = pat.data.map RTok.lit := by
    unfold parsePat
    refine List.map_congr_left ?_
    intro c hc
    have := h c hc
    have hdot : c ≠ '.' := by
      intro he; subst he; simp [isRegexMeta] at this
    simp [hdot]
  rw [strContainsCI, hpat, reSearch_lit, isSubstrCI]

/-- C3 amended: for every search term containing no regex metacharacter,
the search step keeps exactly the rows of the step-1 result where the term
is a case-insensitive substring of Name or City; terms with metacharacters
are instead interpreted as regular expressions. -/
theorem search_substring_for_plain_terms (df : List Row) (c : FilterCriteria)
    (h : ∀ ch ∈ c.searchTerm.data, isRegexMeta ch = false) :
    filteredDf df c = filteredDfSpecSearch df c := by
  by_cases hs : c.searchTerm = ""
  · simp [filteredDf, filteredDfSpecSearch, hs]
  · simp only [filteredDf, filteredDfSpecSearch, if_neg hs]
    refine List.filter_congr ?_
    intro r _
    rw [strContainsCI_eq_isSubstrCI _ _ h, strContainsCI_eq_isSubstrCI _ _ h]

/-- Witness for the amended C3: on the two-row table with plain search term
"bo", the code filter and the substring filter agree. -/
theorem search_substring_for_plain_terms_witness :
    filteredDf [rowA, rowB]
        { categories := ["Eng", "Ops"], departments := ["IT"],
          salaryMin := 0, salaryMax := 1000, searchTerm := "bo" }
      = filteredDfSpecSearch [rowA, rowB]
        { categories := ["Eng", "Ops"], departments := ["IT"],
          salaryMin := 0, salaryMax := 1000, searchTerm := "bo" } :=
  search_substring_for_plain_terms _ _ (by decide)

/-- First-occurrence deduplication, as `Series.unique()` returns the
distinct values of a column in order of appearance. -/
def pdUnique : List String → List String
  | [] => []
  | x :: xs => x :: pdUnique (xs.filter (· ≠ x))
termination_by l => l.length
decreasing_by
  exact Nat.lt_succ_of_le (List.length_filter_le _ _)

/-- Membership is preserved by first-occurrence deduplication. -/
theorem mem_pdUnique (a : String) (l : List String) :
    a ∈ pdUnique l ↔ a ∈ l := by
  induction l using pdUnique.induct with
  | case1 => simp [pdUnique]
  | case2 x xs ih =>
    rw [pdUnique]
    by_cases hax : a = x
    · simp [hax]
    · simp only [List.mem_cons, hax, false_or, ih, List.mem_filter]
      constructor
      · exact fun hf => hf.1
      · exact fun hf => ⟨hf, by simpa using hax⟩

/-- Minimum of a rational column, `Series.min()`; 0 on the empty column
(never taken by the app, which only builds the slider from nonempty data). -/
def colMinD : List ℚ → ℚ
  | [] => 0
  | x :: xs => xs.foldl min x

/-- Maximum of a rational column, `Series.max()`; 0 on the empty column. -/
def colMaxD : List ℚ → ℚ
  | [] => 0
  | x :: xs => xs.foldl max x

/-- A left fold of `min` is bounded by its seed. -/
theorem foldl_min_le_seed (xs : List ℚ) (x : ℚ) : xs.foldl min x ≤ x := by
  induction xs generalizing x with
  | nil => exact le_refl x
  | cons a as ih =>
    exact le_trans (ih (min x a)) (min_le_left x a)

/-- A left fold of `min` is a lower bound for the seed and every element. -/
theorem foldl_min_le (xs : List ℚ) (x y : ℚ) (hy : y ∈ x :: xs) :
    xs.foldl min x ≤ y := by
  induction xs generalizing x with
  | nil => simp at hy; simp [hy]
  | cons a as ih =>
    rw [List.foldl_cons]
    rcases List.mem_cons.mp hy with rfl | hy'
    · exact le_trans (foldl_min_le_seed as (min y a)) (min_le_left y a)
    · rcases List.mem_cons.mp hy' with rfl | htail
      · exact le_trans (foldl_min_le_seed as (min x y)) (min_le_right x y)
      · exact ih (min x a) (List.mem_cons_of_mem _ htail)

/-- A left fold of `max` dominates its seed. -/
theorem seed_le_foldl_max (xs : List ℚ) (x : ℚ) : x ≤ xs.foldl max x := by
  induction xs generalizing x with
  | nil => exact le_refl x
  | cons a as ih =>
    exact le_trans (le_max_left x a) (ih (max x a))

/-- A left fold of `max` is an upper bound for the seed and every element. -/
theorem le_foldl_max (xs : List ℚ) (x y : ℚ) (hy : y ∈ x :: xs) :
    y ≤ xs.foldl max x := by
  induction xs generalizing x with
  | nil => simp at hy; simp [hy]
  | cons a as ih =>
    rw [List.foldl_cons]
    rcases List.mem_cons.mp hy with rfl | hy'
    · exact le_trans (le_max_left y a) (seed_le_foldl_max as (max y a))
    · rcases List.mem_cons.mp hy' with rfl | htail
      · exact le_trans (le_max_right x y) (seed_le_foldl_max as (max x y))
      · exact ih (max x a) (List.mem_cons_of_mem _ htail)

/-- The column minimum bounds every column element from below. -/
theorem colMinD_le_mem (l : List ℚ) (y : ℚ) (hy : y ∈ l) : colMinD l ≤ y := by
  cases l with
  | nil => cases hy
  | cons x xs => exact foldl_min_le xs x y hy

/-- The column maximum bounds every column element from above. -/
theorem le_colMaxD_mem (l : List ℚ) (y : ℚ) (hy : y ∈ l) : y ≤ colMaxD l := by
  cases l with
  | nil => cases hy
  | cons x xs => exact le_foldl_max xs x y hy

/-- The sidebar defaults (app2.py lines 107-131): all distinct categories,
all distinct departments, the full observed salary range, empty search. -/
def selectAllCriteria (df : List Row) : FilterCriteria :=
  { categories := pdUnique (df.map (·.category)),
    departments := pdUnique (df.map (·.department)),
    salaryMin := colMinD (salaryCol df),
    salaryMax := colMaxD (salaryCol df),
    searchTerm := "" }

/-- C6: filtering with the defaults that select everything returns the
input table unchanged, content and row order preserved. -/
theorem filter_select_everything_id (df : List Row) :
    filteredDf df (selectAllCriteria df) = df := by
  have hterm : (selectAllCriteria df).searchTerm = "" := rfl
  have hstep : filteredDfStep1 df (selectAllCriteria df) = df := by
    refine List.filter_eq_self.mpr ?_
    intro r hr
    have h1 : r.category ∈ (selectAllCriteria df).categories :=
      (mem_pdUnique _ _).mpr (List.mem_map_of_mem (fun r => r.category) hr)
    have h2 : r.department ∈ (selectAllCriteria df).departments :=
      (mem_pdUnique _ _).mpr (List.mem_map_of_mem (fun r => r.department) hr)
    have h3 : (selectAllCriteria df).salaryMin ≤ r.salary :=
      colMinD_le_mem _ _ (List.mem_map_of_mem (fun r => r.salary) hr)
    have h4 : r.salary ≤ (selectAllCriteria df).salaryMax :=
      le_colMaxD_mem _ _ (List.mem_map_of_mem (fun r => r.salary) hr)
    simp [h1, h2, h3, h4]
  simp [filteredDf, hterm, hstep]

/-- One raw record as read from `data.csv`, where Salary may be missing
(`NaN` in pandas, `none` here). -/
structure RawRow where
  name : String
  age : ℚ
  salaryOpt : Option ℚ
  city : String
  category : String
  department : String
  date : String
deriving DecidableEq

/-- The warning text of app2.py line 91. -/
def salaryWarning : String :=
  "Warning: Missing values found in 'Salary' column.  Filling with the mean."

/-- Converts a raw record to a loaded record, substituting `fill` for a
missing Salary and keeping a present Salary unchanged. -/
def toRow (r : RawRow) (fill : ℚ) : Row :=
  { name := r.name, age := r.age, salary := r.salaryOpt.getD fill,
    city := r.city, category := r.category, department := r.department,
    date := r.date }

/-- The loader's validation step (app2.py lines 85-94): when some Salary is
missing, emit the warning and fill every missing Salary with
`df['Salary'].mean()`, which pandas computes over the present values only,
before substitution; otherwise return the rows unchanged (the fill value 0
is then never consulted). Returns the table and the warnings emitted. -/
def load_data (raw : List RawRow) : List Row × List String :=
  if raw.any (fun r => r.salaryOpt.isNone) then
    (raw.map (fun r => toRow r (listMean (raw.filterMap (·.salaryOpt)))),
     [salaryWarning])
  else
    (raw.map (fun r => toRow r 0), [])

/-- C7: whenever some Salary is missing (and at least one is present), every
missing Salary is replaced by the arithmetic mean of the present values
computed before substitution, present values are unchanged, and a single
non-fatal warning naming the Salary column is emitted. -/
theorem load_fills_missing_with_mean (raw : List RawRow)
    (hmiss : raw.any (fun r => r.salaryOpt.isNone) = true)
    (_hpres : raw.filterMap (·.salaryOpt) ≠ []) :
    (load_data raw).1
        = raw.map (fun r => toRow r (listMean (raw.filterMap (·.salaryOpt)))) ∧
      (∀ r ∈ raw, r.salaryOpt = none →
        (toRow r (listMean (raw.filterMap (·.salaryOpt)))).salary
          = listMean (raw.filterMap (·.salaryOpt))) ∧
      (∀ r ∈ raw, ∀ q, r.salaryOpt = some q →
        (toRow r (listMean (raw.filterMap (·.salaryOpt)))).salary = q) ∧
      (load_data raw).2 = [salaryWarning] ∧
      isSubstrCI "Salary" salaryWarning = true := by
  refine ⟨?_, ?_, ?_, ?_, ?_⟩
  · unfold load_data
    rw [if_pos hmiss]
  · intro r _ hnone
    simp [toRow, hnone]
  · intro r _ q hsome
    simp [toRow, hsome]
  · unfold load_data
    rw [if_pos hmiss]
  · decide

/-- A three-row raw table with one missing Salary among salaries 100, 200. -/
def rawC : RawRow :=
  { name := "Cara", age := 25, salaryOpt := none, city := "Oslo",
    category := "Eng", department := "IT", date := "2021-01-03" }

/-- A raw row with Salary 100 present. -/
def rawA : RawRow :=
  { name := "Alice", age := 30, salaryOpt := some 100, city := "Rome",
    category := "Eng", department := "IT", date := "2021-01-01" }

/-- A raw row with Salary 200 present. -/
def rawB : RawRow :=
  { name := "Bob", age := 40, salaryOpt := some 200, city := "Paris",
    category := "Ops", department := "IT", date := "2021-01-02" }

/-- Witness for C7: on the three-row table with one missing Salary among
values 100 and 200, the loader fills the hole with their mean and warns. -/
theorem load_fills_missing_with_mean_witness :
    (load_data [rawA, rawB, rawC]).1
        = [rawA, rawB, rawC].map
            (fun r => toRow r (listMean ([rawA, rawB, rawC].filterMap (·.salaryOpt)))) ∧
      (∀ r ∈ [rawA, rawB, rawC], r.salaryOpt = none →
        (toRow r (listMean ([rawA, rawB, rawC].filterMap (·.salaryOpt)))).salary
          = listMean ([rawA, rawB, rawC].filterMap (·.salaryOpt))) ∧
      (∀ r ∈ [rawA, rawB, rawC], ∀ q, r.salaryOpt = some q →
        (toRow r (listMean ([rawA, rawB, rawC].filterMap (·.salaryOpt)))).salary = q) ∧
      (load_data [rawA, rawB, rawC]).2 = [salaryWarning] ∧
      isSubstrCI "Salary" salaryWarning = true :=
  load_fills_missing_with_mean [rawA, rawB, rawC] (by decide) (by decide)

/-- Ascending sorted list of the distinct categories of a table: pandas
`groupby("Category")` with its default `sort=True` orders group keys
lexically ascending, keeping only keys that occur. -/
def groupKeys (df : List Row) : List String :=
  ((df.map (·.category)).dedup).insertionSort (· ≤ ·)

/-- Per-category average salary (app2.py line 159):
`filtered_df.groupby("Category")["Salary"].mean().reset_index()`. -/
def avg_salary_per_category (df : List Row) : List (String × ℚ) :=
  (groupKeys df).map (fun cat =>
    (cat, listMean ((df.filter (fun r => r.category == cat)).map (·.salary))))

/-- Mapping `Prod.fst` over a key-tagging map returns the keys. -/
theorem map_fst_tag {α β : Type} (keys : List α) (f : α → β) :
    (keys.map (fun k => (k, f k))).map Prod.fst = keys := by
  induction keys with
  | nil => rfl
  | cons a as ih => simp [ih]

/-- C10: for every filtered table, the per-category result lists its keys in
strictly ascending lexical order (hence deterministically and without
duplicates), and its keys are exactly the categories present in the
filtered rows. -/
theorem avg_salary_per_category_sorted_keys (df : List Row) (c : FilterCriteria) :
    List.Sorted (· < ·)
        ((avg_salary_per_category (filteredDf df c)).map Prod.fst) ∧
      ∀ s, s ∈ (avg_salary_per_category (filteredDf df c)).map Prod.fst ↔
        s ∈ (filteredDf df c).map (·.category) := by
  have hkeys : (avg_salary_per_category (filteredDf df c)).map Prod.fst
      = groupKeys (filteredDf df c) := by
    unfold avg_salary_per_category
    exact map_fst_tag _ _
  rw [hkeys]
  constructor
  · refine List.Sorted.lt_of_le ?_ ?_
    · exact List.sorted_insertionSort _ _
    · exact ((List.perm_insertionSort _ _).nodup_iff).mpr (List.nodup_dedup _)
  · intro s
    unfold groupKeys
    rw [(List.perm_insertionSort _ _).mem_iff, List.mem_dedup]

/-- Deviations of a column from its mean. -/
def devs (l : List ℚ) : List ℚ := l.map (fun x => x - listMean l)

/-- Sum of products of paired deviations: the shared kernel of the Pearson
covariance and variance in `DataFrame.corr(method='pearson')` (the common
1/(n-1) normalization cancels in the correlation quotient). -/
def sxy (x y : List ℚ) : ℚ := (List.zipWith (· * ·) (devs x) (devs y)).sum

/-- Pearson correlation of two equal-length columns as
`DataFrame.corr(method='pearson')` computes each matrix entry; the entry is
the NaN-free value when the variances are non-zero (with a zero variance
pandas produces NaN, which has no exact counterpart here). -/
noncomputable def corr (x y : List ℚ) : ℝ :=
  (sxy x y : ℝ) / Real.sqrt ((sxy x x : ℝ) * (sxy y y : ℝ))

/-- The values of one selected numeric column over a table
(`filtered_df[selected_columns]`, one column). -/
def colVals (df : List Row) (f : Row → ℚ) : List ℚ := df.map f

/-- Sum of products of deviations is symmetric in its two columns. -/
theorem sxy_comm (x y : List ℚ) : sxy x y = sxy y x := by
  unfold sxy
  rw [List.zipWith_comm_of_comm]
  intro a b
  exact mul_comm a b

/-- Pairing a deviation list with itself multiplies each entry by itself. -/
theorem zipWith_self_mul (l : List ℚ) :
    List.zipWith (· * ·) l l = l.map (fun d => d * d) := by
  induction l with
  | nil => rfl
  | cons a as ih => simp [ih]

/-- The diagonal quantity `sxy x x` is a sum of squares, hence nonnegative. -/
theorem sxy_self_nonneg (x : List ℚ) : 0 ≤ sxy x x := by
  unfold sxy
  rw [zipWith_self_mul]
  apply List.sum_nonneg
  intro q hq
  rcases List.mem_map.mp hq with ⟨d, _, rfl⟩
  exact mul_self_nonneg d

/-- C8: every entry of the Pearson correlation matrix over the filtered
table is symmetric in its two selected columns, and each diagonal entry
equals 1 when the column has non-zero variance within the filtered rows. -/
theorem correlation_symm_diag (df : List Row) (c : FilterCriteria)
    (f g : Row → ℚ) :
    corr (colVals (filteredDf df c) f) (colVals (filteredDf df c) g)
        = corr (colVals (filteredDf df c) g) (colVals (filteredDf df c) f) ∧
      (sxy (colVals (filteredDf df c) f) (colVals (filteredDf df c) f) ≠ 0 →
        corr (colVals (filteredDf df c) f) (colVals (filteredDf df c) f) = 1) := by
  constructor
  · unfold corr
    rw [sxy_comm (colVals (filteredDf df c) f) (colVals (filteredDf df c) g),
      mul_comm ((sxy (colVals (filteredDf df c) f) (colVals (filteredDf df c) f) : ℝ))]
  · intro hne
    set v := colVals (filteredDf df c) f with hv
    have hpos : (0 : ℝ) ≤ (sxy v v : ℝ) := by
      exact_mod_cast sxy_self_nonneg v
    have hsqrt : Real.sqrt ((sxy v v : ℝ) * (sxy v v : ℝ)) = (sxy v v : ℝ) :=
      Real.sqrt_mul_self hpos
    have hR : (sxy v v : ℝ) ≠ 0 := by
      exact_mod_cast hne
    unfold corr
    rw [hsqrt, div_self hR]

/-- Criteria selecting both sample categories, used in concrete instances. -/
def bothCriteria : FilterCriteria :=
  { categories := ["Eng", "Ops"], departments := ["IT"], salaryMin := 0,
    salaryMax := 1000, searchTerm := "" }

/-- Witness for C8: on the filtered two-row table, the Age/Salary entry
equals the Salary/Age entry, and the Age diagonal entry (variance 50, hence
non-zero) equals 1. -/
theorem correlation_symm_diag_witness :
    corr (colVals (filteredDf [rowA, rowB] bothCriteria) (fun r => r.age))
          (colVals (filteredDf [rowA, rowB] bothCriteria) (fun r => r.salary))
        = corr (colVals (filteredDf [rowA, rowB] bothCriteria) (fun r => r.salary))
          (colVals (filteredDf [rowA, rowB] bothCriteria) (fun r => r.age)) ∧
      corr (colVals (filteredDf [rowA, rowB] bothCriteria) (fun r => r.age))
          (colVals (filteredDf [rowA, rowB] bothCriteria) (fun r => r.age)) = 1 := by
  have hv : colVals (filteredDf [rowA, rowB] bothCriteria) (fun r => r.age)
      = [30, 40] := rfl
  refine ⟨(correlation_symm_diag [rowA, rowB] bothCriteria
      (fun r => r.age) (fun r => r.salary)).1,
    (correlation_symm_diag [rowA, rowB] bothCriteria
      (fun r => r.age) (fun r => r.age)).2 ?_⟩
  rw [hv]
  norm_num [sxy, devs, listMean]

/-- Whether a CSV field must be quoted (csv `QUOTE_MINIMAL`, used by
`DataFrame.to_csv`): it contains a delimiter, a quote, or a line break. -/
def isCsvSpecial (ch : Char) : Bool :=
  ch = ',' || ch = '"' || ch = '\n' || ch = '\r'

/-- Doubles every quote of a field body, as the csv writer escapes quotes. -/
def escQ : List Char → List Char
  | [] => []
  | ch :: cs => if ch = '"' then '"' :: '"' :: escQ cs else ch :: escQ cs

/-- Encodes one field: quoted with doubled inner quotes when it contains a
special character, verbatim otherwise. -/
def encodeField (f : List Char) : List Char :=
  if f.any isCsvSpecial then '"' :: (escQ f ++ ['"']) else f

/-- Encodes one record: its fields joined by commas. -/
def encodeRecord : List (List Char) → List Char
  | [] => []
  | [f] => encodeField f
  | f :: fs => encodeField f ++ ',' :: encodeRecord fs

/-- Encodes all records, each terminated by a newline, as
`DataFrame.to_csv(index=False)` writes them after the header line. -/
def csvEncodeRows : List (List (List Char)) → List Char
  | [] => []
  | r :: rs => encodeRecord r ++ '\n' :: csvEncodeRows rs

/-- Parses the body of a quoted field after its opening quote: a doubled
quote yields one quote, a lone quote closes the field. -/
def parseQuoted : List Char → Option (List Char × List Char)
  | [] => none
  | ch :: rest =>
    if ch = '"' then
      match rest with
      | '"' :: rest' => (parseQuoted rest').map (fun p => ('"' :: p.1, p.2))
      | _ => some ([], rest)
    else (parseQuoted rest).map (fun p => (ch :: p.1, p.2))

/-- Parses an unquoted field: consumes characters up to a delimiter or a
newline, which stays in the remainder. -/
def parseRaw : List Char → List Char × List Char
  | [] => ([], [])
  | ch :: rest =>
    if ch = ',' || ch = '\n' then ([], ch :: rest)
    else (ch :: (parseRaw rest).1, (parseRaw rest).2)

/-- Parses one field: quoted when it starts with a quote, raw otherwise. -/
def parseField : List Char → Option (List Char × List Char)
  | '"' :: rest => parseQuoted rest
  | cs => some (parseRaw cs)

/-- Parses one record, the fuel bounding the number of fields: fields
separated by commas, ended by a newline or by the end of the input. -/
def parseRecordF : ℕ → List Char → Option (List (List Char) × List Char)
  | 0, _ => none
  | fuel + 1, cs =>
    match parseField cs with
    | none => none
    | some (f, rest) =>
      match rest with
      | ',' :: rest' => (parseRecordF fuel rest').map (fun p => (f :: p.1, p.2))
      | '\n' :: rest' => some ([f], rest')
      | [] => some ([f], [])
      | _ => none

/-- Parses a sequence of newline-terminated records, the fuel bounding the
number of records. -/
def csvParseF : ℕ → List Char → Option (List (List (List Char)))
  | _, [] => some []
  | 0, _ :: _ => none
  | fuel + 1, ch :: cs =>
    match parseRecordF ((ch :: cs).length + 1) (ch :: cs) with
    | none => none
    | some (r, rest) => (csvParseF fuel rest).map (fun rows => r :: rows)

/-- Parses CSV text; fuel `length` suffices because every record of a
nonempty input consumes at least its terminating newline or final field. -/
def csvParse (cs : List Char) : Option (List (List (List Char))) :=
  csvParseF cs.length cs

/-- The remainder after a field: empty, or starting with a separator. -/
def headIsSep : List Char → Prop
  | [] => True
  | ch :: _ => ch = ',' ∨ ch = '\n'

/-- Raw parsing undoes verbatim encoding of a special-character-free field
when the remainder starts with a separator. -/
theorem parseRaw_append (f rest : List Char)
    (hf : f.any isCsvSpecial = false) (h : headIsSep rest) :
    parseRaw (f ++ rest) = (f, rest) := by
  induction f with
  | nil =>
    cases rest with
    | nil => rfl
    | cons ch r =>
      rcases h with h | h <;> simp [parseRaw, h]
  | cons a f' ih =>
    rw [List.any_cons, Bool.or_eq_false_iff] at hf
    have ha : (a = ',') = False ∧ (a = '\n') = False := by
      constructor <;>
        · simp only [eq_iff_iff, iff_false]
          intro he
          subst he
          simp [isCsvSpecial] at hf
    simp [parseRaw, ha.1, ha.2, ih hf.2]

/-- One-step unfolding of `parseQuoted` on a nonempty input. -/
theorem parseQuoted_cons (ch : Char) (rest : List Char) :
    parseQuoted (ch :: rest) =
      if ch = '"' then
        match rest with
        | '"' :: rest' => (parseQuoted rest').map (fun p => ('"' :: p.1, p.2))
        | _ => some ([], rest)
      else (parseQuoted rest).map (fun p => (ch :: p.1, p.2)) := by
  rw [parseQuoted.eq_def]

/-- Quoted parsing undoes quote-doubling when the remainder after the
closing quote starts with a separator. -/
theorem parseQuoted_escQ (f rest : List Char) (h : headIsSep rest) :
    parseQuoted (escQ f ++ '"' :: rest) = some (f, rest) := by
  induction f with
  | nil =>
    cases rest with
    | nil =>
      rw [show escQ [] ++ '"' :: ([] : List Char) = ['"'] from rfl,
        parseQuoted_cons, if_pos rfl]
    | cons ch r =>
      have hch : ch ≠ '"' := by
        rcases h with h | h <;> simp [h]
      simp only [escQ, List.nil_append]
      rw [parseQuoted_cons, if_pos rfl]
      split
      · rename_i rest' heq
        injection heq with h1 h2
        exact absurd h1 hch
      · rfl
  | cons a f' ih =>
    by_cases ha : a = '"'
    · subst ha
      have he : escQ ('"' :: f') = '"' :: '"' :: escQ f' := by
        simp [escQ]
      rw [he, List.cons_append, List.cons_append, parseQuoted_cons, if_pos rfl]
      simp [ih]
    · have he : escQ (a :: f') = a :: escQ f' := by
        simp [escQ, ha]
      rw [he, List.cons_append, parseQuoted_cons, if_neg ha, ih]
      rfl

/-- Field parsing dispatches to raw parsing when the input does not open
with a quote. -/
theorem parseField_not_quote (cs : List Char) (hcs : ∀ xs, cs ≠ '"' :: xs) :
    parseField cs = some (parseRaw cs) := by
  rw [parseField.eq_def]
  split
  · rename_i rest
    exact absurd rfl (hcs rest)
  · rfl

/-- Field parsing undoes field encoding when the remainder starts with a
separator. -/
theorem parseField_encodeField (f rest : List Char) (h : headIsSep rest) :
    parseField (encodeField f ++ rest) = some (f, rest) := by
  unfold encodeField
  by_cases hq : f.any isCsvSpecial
  · rw [if_pos hq]
    have hsh : ('"' :: (escQ f ++ ['"'])) ++ rest
        = '"' :: (escQ f ++ '"' :: rest) := by
      simp
    rw [hsh, show ∀ xs, parseField ('"' :: xs) = parseQuoted xs from fun _ => rfl]
    exact parseQuoted_escQ f rest h
  · rw [if_neg hq]
    rw [Bool.not_eq_true] at hq
    cases f with
    | nil =>
      cases rest with
      | nil => rfl
      | cons ch r =>
        have hch : ch ≠ '"' := by
          rcases h with h | h <;> simp [h]
        rw [List.nil_append,
          parseField_not_quote _ (fun xs hx => hch (List.cons.inj hx).1)]
        rcases h with h | h <;> simp [parseRaw, h]
    | cons a f' =>
      rw [List.any_cons, Bool.or_eq_false_iff] at hq
      have ha : a ≠ '"' := by
        intro he
        subst he
        simp [isCsvSpecial] at hq
      rw [List.cons_append,
        parseField_not_quote _ (fun xs hx => ha (List.cons.inj hx).1)]
      have hp := parseRaw_append (a :: f') rest
        (by simp [List.any_cons, hq.1, hq.2]) h
      rw [show a :: (f' ++ rest) = (a :: f') ++ rest from rfl, hp]

/-- Record parsing undoes record encoding before a newline, with fuel at
least the number of fields. -/
theorem parseRecordF_encodeRecord (r : List (List Char)) (rest : List Char)
    (fuel : ℕ) (hr : r ≠ []) (hfuel : r.length ≤ fuel) :
    parseRecordF fuel (encodeRecord r ++ '\n' :: rest) = some (r, rest) := by
  induction r generalizing rest fuel with
  | nil => exact absurd rfl hr
  | cons f fs ih =>
    obtain ⟨k, rfl⟩ : ∃ k, fuel = k + 1 := by
      refine ⟨fuel - 1, ?_⟩
      have : 1 ≤ fuel := le_trans (by simp) hfuel
      omega
    cases fs with
    | nil =>
      rw [show encodeRecord [f] = encodeField f from rfl]
      rw [show parseRecordF (k + 1) (encodeField f ++ '\n' :: rest)
          = (match parseField (encodeField f ++ '\n' :: rest) with
             | none => none
             | some (g, rem) =>
               match rem with
               | ',' :: rem' => (parseRecordF k rem').map (fun p => (g :: p.1, p.2))
               | '\n' :: rem' => some ([g], rem')
               | [] => some ([g], [])
               | _ => none) from rfl]
      rw [parseField_encodeField f ('\n' :: rest) (by simp [headIsSep])]
      rfl
    | cons g gs =>
      have henc : encodeRecord (f :: g :: gs)
          = encodeField f ++ ',' :: encodeRecord (g :: gs) := rfl
      rw [henc, List.append_assoc, List.cons_append]
      rw [show parseRecordF (k + 1)
            (encodeField f ++ ',' :: (encodeRecord (g :: gs) ++ '\n' :: rest))
          = (match parseField
                (encodeField f ++ ',' :: (encodeRecord (g :: gs) ++ '\n' :: rest)) with
             | none => none
             | some (h, rem) =>
               match rem with
               | ',' :: rem' => (parseRecordF k rem').map (fun p => (h :: p.1, p.2))
               | '\n' :: rem' => some ([h], rem')
               | [] => some ([h], [])
               | _ => none) from rfl]
      rw [parseField_encodeField f _ (by simp [headIsSep])]
      have hlen : (g :: gs).length ≤ k := by
        simp only [List.length_cons] at hfuel ⊢
        omega
      simp [ih rest k (by simp) hlen]

/-- A record has at most one more field than its encoding has characters
(each extra field brings a comma). -/
theorem length_le_encodeRecord (r : List (List Char)) :
    r.length ≤ (encodeRecord r).length + 1 := by
  induction r with
  | nil => simp
  | cons f fs ih =>
    cases fs with
    | nil => simp
    | cons g gs =>
      have henc : encodeRecord (f :: g :: gs)
          = encodeField f ++ ',' :: encodeRecord (g :: gs) := rfl
      rw [henc]
      simp only [List.length_cons, List.length_append] at ih ⊢
      omega

/-- The encoding has at least one character per record (its newline). -/
theorem length_le_csvEncodeRows (rows : List (List (List Char))) :
    rows.length ≤ (csvEncodeRows rows).length := by
  induction rows with
  | nil => simp
  | cons r rs ih =>
    have henc : csvEncodeRows (r :: rs)
        = encodeRecord r ++ '\n' :: csvEncodeRows rs := rfl
    rw [henc]
    simp only [List.length_cons, List.length_append] at ih ⊢
    omega

/-- Parsing undoes the encoding of a sequence of nonempty records, with
fuel at least the number of records. -/
theorem csvParseF_encodeRows (rows : List (List (List Char))) (fuel : ℕ)
    (hne : ∀ r ∈ rows, r ≠ []) (hfuel : rows.length ≤ fuel) :
    csvParseF fuel (csvEncodeRows rows) = some rows := by
  induction rows generalizing fuel with
  | nil => cases fuel <;> rfl
  | cons r rows' ih =>
    obtain ⟨k, rfl⟩ : ∃ k, fuel = k + 1 := by
      refine ⟨fuel - 1, ?_⟩
      have : 1 ≤ fuel := le_trans (by simp) hfuel
      omega
    have henc : csvEncodeRows (r :: rows')
        = encodeRecord r ++ '\n' :: csvEncodeRows rows' := rfl
    obtain ⟨ch, cs, hI⟩ : ∃ ch cs,
        encodeRecord r ++ '\n' :: csvEncodeRows rows' = ch :: cs := by
      cases hE : encodeRecord r with
      | nil => exact ⟨'\n', csvEncodeRows rows', by simp⟩
      | cons e es => exact ⟨e, es ++ '\n' :: csvEncodeRows rows', by simp⟩
    rw [henc, hI]
    rw [show csvParseF (k + 1) (ch :: cs)
        = (match parseRecordF ((ch :: cs).length + 1) (ch :: cs) with
           | none => none
           | some (r, rest) => (csvParseF k rest).map (fun rows => r :: rows))
        from rfl]
    rw [← hI]
    have hrne : r ≠ [] := hne r (List.mem_cons_self _ _)
    have hlen : r.length
        ≤ (encodeRecord r ++ '\n' :: csvEncodeRows rows').length + 1 := by
      have h1 := length_le_encodeRecord r
      simp only [List.length_append, List.length_cons]
      omega
    rw [parseRecordF_encodeRecord r (csvEncodeRows rows') _ hrne hlen]
    have hrest := ih k (fun g hg => hne g (List.mem_cons_of_mem _ hg))
      (by simp only [List.length_cons] at hfuel; omega)
    simp [hrest]

/-- Parsing the full CSV text undoes the encoding of nonempty records. -/
theorem csvParse_encodeRows (rows : List (List (List Char)))
    (hne : ∀ r ∈ rows, r ≠ []) :
    csvParse (csvEncodeRows rows) = some rows :=
  csvParseF_encodeRows rows _ hne (length_le_csvEncodeRows rows)

/-- The schema's column names in canonical order, the header line of
`data.csv` and of the export. -/
def csvHeader : List String :=
  ["Name", "Age", "Salary", "City", "Category", "Department", "Date"]

/-- Text of a numeric cell: the canonical decimal (or fraction) form of the
exact rational standing in for the float the code writes. -/
def qCell (q : ℚ) : String :=
  if q.den = 1 then toString q.num
  else toString q.num ++ "/" ++ toString q.den

/-- The cells of one exported row, in schema column order. -/
def rowCells (r : Row) : List String :=
  [r.name, qCell r.age, qCell r.salary, r.city, r.category, r.department,
    r.date]

/-- The download payload (app2.py line 245):
`filtered_df.to_csv(index=False).encode('utf-8')` — the header line then
one line per row, fields quoted minimally; the byte string is modelled as
the character sequence it decodes to. -/
def exportCsv (df : List Row) : List Char :=
  csvEncodeRows ((csvHeader :: df.map rowCells).map
    (fun cells => cells.map String.data))

/-- C9: exporting the filtered view and parsing the emitted CSV text
reproduces, field for field, the header in canonical column order followed
by exactly the filtered rows' cells in row order; export is a pure function
of the filtered table, hence deterministic. -/
theorem export_roundtrip (df : List Row) (c : FilterCriteria) :
    csvParse (exportCsv (filteredDf df c))
      = some ((csvHeader :: (filteredDf df c).map rowCells).map
          (fun cells => cells.map String.data)) := by
  apply csvParse_encodeRows
  intro r hr
  rcases List.mem_map.mp hr with ⟨cells, hcells, rfl⟩
  rcases List.mem_cons.mp hcells with rfl | htail
  · simp [csvHeader]
  · rcases List.mem_map.mp htail with ⟨row, _, rfl⟩
    simp [rowCells]
